import Mathlib

/-!
Verification of the Top-Push matrix-factorisation trainer (`code/Train.ipynb`).

Scores are modelled as rationals; the IEEE value `-inf` used by the masking
step is modelled as `⊥` in `WithBot ℚ`.  Batch shapes are fixed, as in the
TensorFlow graph: a batch has `B` rows and `M` song columns, so the score
matrix is a function `Fin B → Fin M → ℚ`.  The elementwise float operations
on possibly `-inf` values are modelled by the computable functions `addBot`,
`wmax` and `divBot`, which agree with the order-theoretic `+`, `⊔` on
`WithBot ℚ` (proved below) on every value the trainer reaches.
-/

namespace MFTP

/-- Binary maximum of two rationals, written so that it computes by kernel
reduction. -/
def rmax (x y : ℚ) : ℚ :=
  if x ≤ y then y else x

theorem rmax_eq (x y : ℚ) : rmax x y = max x y := by
  rw [rmax, max_def]

/-- Rectified linear unit on scores extended with negative infinity (`⊥`
models IEEE `-inf`): `relu x = max 0 x`, and `relu (-inf) = 0`, exactly as
`tf.nn.relu` behaves on `-inf`. -/
def relu (v : WithBot ℚ) : ℚ :=
  WithBot.recBotCoe 0 (fun x => rmax 0 x) v

/-- Division of an extended score by a rational, as `tf.divide` behaves on the
values reachable here: a finite score divides normally and `-inf / m = -inf`. -/
def divBot (v : WithBot ℚ) (m : ℚ) : WithBot ℚ :=
  v.map (fun x => x / m)

/-- Addition of a finite score and a possibly `-inf` score, as IEEE `+`
behaves there: `x + (-inf) = -inf`. -/
def addBot (x : ℚ) (v : WithBot ℚ) : WithBot ℚ :=
  v.map (fun y => x + y)

/-- Binary maximum on scores extended with `-inf`, as IEEE `max` behaves. -/
def wmax (a b : WithBot ℚ) : WithBot ℚ :=
  WithBot.recBotCoe b
    (fun x => WithBot.recBotCoe ((x : WithBot ℚ)) (fun y => ((rmax x y : ℚ) : WithBot ℚ)) b) a

theorem addBot_eq (x : ℚ) (v : WithBot ℚ) : addBot x v = (x : WithBot ℚ) + v := by
  induction v using WithBot.recBotCoe with
  | bot => rfl
  | coe y => rfl

theorem wmax_eq (a b : WithBot ℚ) : wmax a b = a ⊔ b := by
  induction a using WithBot.recBotCoe with
  | bot => simp [wmax]
  | coe x =>
    induction b using WithBot.recBotCoe with
    | bot => simp [wmax]
    | coe y =>
      simp only [wmax, WithBot.recBotCoe_coe, rmax_eq]
      rw [← WithBot.coe_sup]

/-- Embedding of
`tf.scatter_nd(shape=T.shape, indices=posIx, updates=tf.tile([-np.inf], [nPos]))`:
the dense `B × M` matrix holding `-inf` at every listed positive position and
`0` elsewhere. -/
def scatterNeg {B M : ℕ} (posIx : List (Fin B × Fin M)) : Fin B → Fin M → WithBot ℚ :=
  fun r c => if (r, c) ∈ posIx then ⊥ else 0

/-- Embedding of `Tn = T + tf.scatter_nd(...)`: the score matrix with every
positive entry masked down to `-inf`.  The entries of `T` are always finite,
so the elementwise float addition is `addBot`. -/
def Tn {B M : ℕ} (T : Fin B → Fin M → ℚ) (posIx : List (Fin B × Fin M)) :
    Fin B → Fin M → WithBot ℚ :=
  fun r c => addBot (T r c) (scatterNeg posIx r c)

/-- Embedding of `max_negs = tf.reduce_max(Tn, axis=1)`: the maximum of each
row of the masked score matrix. -/
def max_negs {B M : ℕ} (T : Fin B → Fin M → ℚ) (posIx : List (Fin B × Fin M)) :
    Fin B → WithBot ℚ :=
  fun r => (((List.finRange M).map fun c => Tn T posIx r c).foldr wmax ⊥)

/-- One entry of `relu_vec`: for positive pair `p = (row, song)` this is
`relu((1 - pos_vec + max_negs[row]) / Mplus[row])`, matching
`tf.nn.relu(tf.divide(1 - pos_vec + tf.gather(max_negs, row_ix), tf.gather(Mplus, row_ix)))`. -/
def hingeTerm {B M : ℕ} (T : Fin B → Fin M → ℚ) (posIx : List (Fin B × Fin M))
    (Mplus : Fin B → ℚ) (p : Fin B × Fin M) : ℚ :=
  relu (divBot (addBot (1 - T p.1 p.2) (max_negs T posIx p.1)) (Mplus p.1))

/-- Embedding of `relu_vec`, one entry per positive pair of the batch. -/
def relu_vec {B M : ℕ} (T : Fin B → Fin M → ℚ) (posIx : List (Fin B × Fin M))
    (Mplus : Fin B → ℚ) : List ℚ :=
  posIx.map (hingeTerm T posIx Mplus)

/-- Embedding of
`cost = tf.reduce_sum(tf.multiply(relu_vec, relu_vec)) / tf.cast(T.shape[0], tf.float32)`;
`T.shape[0]` is the batch size `B`. -/
def cost {B M : ℕ} (T : Fin B → Fin M → ℚ) (posIx : List (Fin B × Fin M))
    (Mplus : Fin B → ℚ) : ℚ :=
  ((relu_vec T posIx Mplus).map fun u => u * u).sum / (B : ℚ)

/-- Spec-side masked matrix, written from the specification's words: the
matrix "identical to T but with every positive entry replaced by negative
infinity". -/
def maskedSpec {B M : ℕ} (T : Fin B → Fin M → ℚ) (posIx : List (Fin B × Fin M)) :
    Fin B → Fin M → WithBot ℚ :=
  fun r c => if (r, c) ∈ posIx then (⊥ : WithBot ℚ) else (T r c : WithBot ℚ)

/-- Spec-side masked maximum: the maximum over the columns of the masked
matrix. -/
def maskedMaxSpec {B M : ℕ} (T : Fin B → Fin M → ℚ) (posIx : List (Fin B × Fin M)) :
    Fin B → WithBot ℚ :=
  fun r => (((List.finRange M).map fun c => maskedSpec T posIx r c).foldr wmax ⊥)

/-- Spec-side loss, written from the specification's words:
`(1/B) * sum over positive pairs of relu((1 - T[row,song] + max_neg[row]) / M⁺[row])^2`. -/
def lossSpec {B M : ℕ} (T : Fin B → Fin M → ℚ) (posIx : List (Fin B × Fin M))
    (Mplus : Fin B → ℚ) : ℚ :=
  (1 / (B : ℚ)) *
    (posIx.map fun p =>
      relu (divBot (addBot (1 - T p.1 p.2) (maskedMaxSpec T posIx p.1)) (Mplus p.1)) ^ 2).sum

/-- Decidable test for a strictly positive extended score. -/
def posBot (v : WithBot ℚ) : Bool :=
  WithBot.recBotCoe false (fun x => decide (0 < x)) v

/-- Modelled from the spec: the trainer differentiates `cost` with TensorFlow's
automatic differentiation, which is not part of the source; the spec's
sub-gradient rule (§4.3 step 7) states that the derivative of a positive pair's
squared-hinge term with respect to its positive score is `-2u` when the margin
violation `v = 1 - pos_vec + max_negs[row]` is positive and `0` otherwise. -/
def gradPosTerm {B M : ℕ} (T : Fin B → Fin M → ℚ) (posIx : List (Fin B × Fin M))
    (Mplus : Fin B → ℚ) (p : Fin B × Fin M) : ℚ :=
  if posBot (addBot (1 - T p.1 p.2) (max_negs T posIx p.1)) then
    -2 * hingeTerm T posIx Mplus p
  else 0

/-! ## Batch statistics extractor

Embedding of the per-batch statistics the training loop feeds into the graph:
`Y_nb = Y[indices, :]`, `Mplus_nb = Y_nb.sum(axis=1)`, `Y_coo = Y_nb.tocoo()`,
`posIx = hstack([Y_coo.row, Y_coo.col])`, `nPos = Y_coo.row.shape[0]`.
A CSR matrix converted to COO lists its nonzero entries row by row and, within
a row, by ascending column. -/

/-- Columns of the positive entries of one row of `Y`, in ascending order. -/
def rowPos {M : ℕ} (Yrow : Fin M → Bool) : List (Fin M) :=
  (List.finRange M).filter fun c => Yrow c

/-- Embedding of `posIx`: the row-major list of (local batch row, global song
column) pairs of the positive entries of `Y[indices, :]`. -/
def posIxOf {N M B : ℕ} (Y : Fin N → Fin M → Bool) (indices : Fin B → Fin N) :
    List (Fin B × Fin M) :=
  (List.finRange B).flatMap fun r => (rowPos (Y (indices r))).map fun c => (r, c)

/-- Embedding of `Mplus_nb`: the number of positive entries of each batch row,
fed to the graph as a float. -/
def MplusOf {N M B : ℕ} (Y : Fin N → Fin M → Bool) (indices : Fin B → Fin N) :
    Fin B → ℚ :=
  fun r => ((rowPos (Y (indices r))).length : ℚ)

/-- Embedding of `nPos = Y_coo.row.shape[0]`: the total number of positive
entries in the batch. -/
def nPosOf {N M B : ℕ} (Y : Fin N → Fin M → Bool) (indices : Fin B → Fin N) : ℕ :=
  (posIxOf Y indices).length

/-! ## Parameters, scores and the training loop -/

/-- The learnable parameters: song features `S` (D × M), song biases `b`
(length M) and playlist features `P` (N × D). -/
structure MFParams (N M D : ℕ) where
  S : Fin D → Fin M → ℚ
  b : Fin M → ℚ
  P : Fin N → Fin D → ℚ

/-- The statistics fed to one training step through `feed_dict`. -/
structure BatchStats (B M : ℕ) where
  posIx : List (Fin B × Fin M)
  Mplus : Fin B → ℚ
  nPos : ℕ

/-- The statistics extracted from `Y` for one batch of playlist indices. -/
def extractStats {N M B : ℕ} (Y : Fin N → Fin M → Bool) (indices : Fin B → Fin N) :
    BatchStats B M :=
  { posIx := posIxOf Y indices
    Mplus := MplusOf Y indices
    nPos := nPosOf Y indices }

/-- Embedding of `T = tf.matmul(Pb, S) + b` with `Pb = tf.gather(P, pIx)`:
the batch score matrix. -/
def scoresOf {N M D B : ℕ} (w : MFParams N M D) (indices : Fin B → Fin N) :
    Fin B → Fin M → ℚ :=
  fun r c => (∑ d : Fin D, w.P (indices r) d * w.S d c) + w.b c

/-- The trainer state: the membership matrix `Y`, the current parameters, and
the log of per-batch loss values the loop prints. -/
structure TrainState (N M D : ℕ) where
  Y : Fin N → Fin M → Bool
  params : MFParams N M D
  log : List ℚ

/-- One training step on a batch: extract the statistics from `Y`, evaluate the
cost, and update the parameters.  The gradient-descent update performed by
`tf.train.AdamOptimizer(...).minimize(cost)` is an external library call and is
abstracted as `optStep`; the step reads `Y` only through the extracted
statistics. -/
def trainStep {N M D B : ℕ}
    (optStep : MFParams N M D → (Fin B → Fin N) → BatchStats B M → MFParams N M D)
    (st : TrainState N M D) (indices : Fin B → Fin N) : TrainState N M D :=
  let stats := extractStats st.Y indices
  let J := cost (scoresOf st.params indices) stats.posIx stats.Mplus
  { st with params := optStep st.params indices stats, log := st.log ++ [J] }

/-- One epoch: fold the training step over the epoch's batches. -/
def runEpoch {N M D B : ℕ}
    (optStep : MFParams N M D → (Fin B → Fin N) → BatchStats B M → MFParams N M D)
    (st : TrainState N M D) (batches : List (Fin B → Fin N)) : TrainState N M D :=
  batches.foldl (trainStep optStep) st

/-- The whole training loop: fold the epochs. -/
def runTraining {N M D B : ℕ}
    (optStep : MFParams N M D → (Fin B → Fin N) → BatchStats B M → MFParams N M D)
    (st : TrainState N M D) (epochs : List (List (Fin B → Fin N))) : TrainState N M D :=
  epochs.foldl (runEpoch optStep) st

/-! ## Batch sampler

Embedding of `n_batches = int((N - 1) / batch_size) + 1` and of the slicing

    indices = rand_ix[nb * batch_size : min((nb + 1) * batch_size, N)]
    if len(indices) < batch_size:
        indices = np.r_[indices, rand_ix[:batch_size - len(indices)]]

Python slices clamp to the list length, which `List.take`/`List.drop` match. -/

/-- Embedding of `n_batches`; `(N - 1) / B` is natural division, which agrees
with Python's `int((N - 1) / batch_size)` for every `N` (both give `0` at
`N = 0`). -/
def n_batches (N B : ℕ) : ℕ :=
  (N - 1) / B + 1

/-- Embedding of one batch of the epoch: the `nb`-th chunk of the permutation,
padded with indices from the start of the permutation when it is short. -/
def mkBatch (perm : List ℕ) (B nb : ℕ) : List ℕ :=
  let indices := (perm.drop (nb * B)).take B
  if indices.length < B then indices ++ perm.take (B - indices.length) else indices

/-- All batches of one epoch, in order. -/
def epochBatches (perm : List ℕ) (B N : ℕ) : List (List ℕ) :=
  (List.range (n_batches N B)).map fun nb => mkBatch perm B nb

/-- Modelled from the spec: the loop draws `rand_ix = np.random.permutation(N)`
once per epoch from numpy's global random generator, which the source never
seeds (`RAND_SEED` is passed only to `tf.set_random_seed`).  The generator is
abstracted as a state-passing function `npPerm`; the initial state comes from
process start-up, not from the configuration. -/
def epochPerms {σ : Type} (npPerm : σ → ℕ → List ℕ × σ) (N : ℕ) :
    ℕ → σ → List (List ℕ)
  | 0, _ => []
  | Nat.succ e, s =>
    let drawn := npPerm s N
    drawn.1 :: epochPerms npPerm N e drawn.2

/-- The per-epoch batch orderings a run produces, as a function of the numpy
generator's start-up state `s`. -/
def runOrderings {σ : Type} (npPerm : σ → ℕ → List ℕ × σ) (N B epochs : ℕ)
    (s : σ) : List (List (List ℕ)) :=
  (epochPerms npPerm N epochs s).map fun perm => epochBatches perm B N

/-! ## Parameter initialisation and the saved artifact -/

/-- Embedding of `S = tf.Variable(initial_value=1e-3 * tf.random_uniform([D, M]))`;
`u` is the tensor drawn by `tf.random_uniform`, whose entries lie in `[0, 1)`. -/
def initS (D M : ℕ) (u : Fin D → Fin M → ℚ) : Fin D → Fin M → ℚ :=
  fun d m => (1 / 1000 : ℚ) * u d m

/-- Embedding of `b = tf.Variable(initial_value=1e-3 * tf.random_uniform([1, M]))`. -/
def initb (M : ℕ) (u : Fin M → ℚ) : Fin M → ℚ :=
  fun m => (1 / 1000 : ℚ) * u m

/-- Embedding of `P = tf.Variable(initial_value=1e-3 * tf.random_uniform([N, D]))`. -/
def initP (N D : ℕ) (u : Fin N → Fin D → ℚ) : Fin N → Fin D → ℚ :=
  fun n d => (1 / 1000 : ℚ) * u n d

/-- Embedding of `np.r_[A1, A2, A3]` on three row-major matrices: numpy
concatenates along the first axis and requires every row to have the same
number of columns, raising `ValueError` (modelled as `none`) otherwise. -/
def np_r3 (A1 A2 A3 : List (List ℚ)) : Option (List (List ℚ)) :=
  let rows := A1 ++ A2 ++ A3
  if ∀ r ∈ rows, ∀ r' ∈ rows, r.length = r'.length then some rows else none

/-- The matrix `S.eval()` as a row-major list of rows. -/
def matOfS (D M : ℕ) (S : Fin D → Fin M → ℚ) : List (List ℚ) :=
  (List.finRange D).map fun d => (List.finRange M).map fun m => S d m

/-- The matrix `b.eval()` (shape `1 × M`) as a row-major list of rows. -/
def matOfb (M : ℕ) (b : Fin M → ℚ) : List (List ℚ) :=
  [(List.finRange M).map fun m => b m]

/-- The matrix `P.eval()` as a row-major list of rows. -/
def matOfP (N D : ℕ) (P : Fin N → Fin D → ℚ) : List (List ℚ) :=
  (List.finRange N).map fun n => (List.finRange D).map fun d => P n d

/-- Embedding of `w = np.r_[S.eval(), b.eval(), P.eval()]`, the array passed to
`np.save` at the end of training. -/
def blobOf (D M N : ℕ) (S : Fin D → Fin M → ℚ) (b : Fin M → ℚ)
    (P : Fin N → Fin D → ℚ) : Option (List (List ℚ)) :=
  np_r3 (matOfS D M S) (matOfb M b) (matOfP N D P)

/-! ## Helper lemmas about the masked maximum -/

theorem Tn_eq {B M : ℕ} (T : Fin B → Fin M → ℚ) (posIx : List (Fin B × Fin M))
    (r : Fin B) (c : Fin M) :
    Tn T posIx r c = if (r, c) ∈ posIx then (⊥ : WithBot ℚ) else (T r c : WithBot ℚ) := by
  simp only [Tn, scatterNeg, addBot]
  split
  · rfl
  · rw [show (0 : WithBot ℚ) = ((0 : ℚ) : WithBot ℚ) from rfl, WithBot.map_coe, add_zero]

theorem le_foldr_wmax (l : List (WithBot ℚ)) (x : WithBot ℚ) (hx : x ∈ l) :
    x ≤ l.foldr wmax ⊥ := by
  induction l with
  | nil => cases hx
  | cons a l ih =>
    rw [List.foldr_cons, wmax_eq]
    rcases List.mem_cons.1 hx with h | h
    · exact h ▸ le_sup_left
    · exact (ih h).trans le_sup_right

theorem foldr_wmax_cases (l : List (WithBot ℚ)) :
    l.foldr wmax ⊥ = ⊥ ∨ l.foldr wmax ⊥ ∈ l := by
  induction l with
  | nil => exact Or.inl rfl
  | cons a l ih =>
    rw [List.foldr_cons, wmax_eq]
    rcases ih with h | h
    · rw [h, sup_bot_eq]
      exact Or.inr (List.mem_cons_self a l)
    · rcases le_total a (l.foldr wmax ⊥) with hle | hle
      · rw [sup_eq_right.2 hle]
        exact Or.inr (List.mem_cons_of_mem a h)
      · rw [sup_eq_left.2 hle]
        exact Or.inr (List.mem_cons_self a l)

theorem max_negs_eq_spec {B M : ℕ} (T : Fin B → Fin M → ℚ)
    (posIx : List (Fin B × Fin M)) (r : Fin B) :
    max_negs T posIx r = maskedMaxSpec T posIx r := by
  simp only [max_negs, maskedMaxSpec]
  have h : (fun c => Tn T posIx r c) = fun c => maskedSpec T posIx r c := by
    funext c
    rw [Tn_eq]
    rfl
  rw [h]

/-! ## Claim theorems -/

/-- C1: for every batch with positive-pair list `posIx`, per-row positive
counts `Mplus` and score matrix `T`, the computed loss equals
`(1/B) * sum over positive pairs of relu((1 - T[row,song] + max_neg[row]) / M⁺[row])^2`
with `max_neg` the masked per-row maximum, and the loss is non-negative; the
sum is divided by the batch size `B`, not by the total positive count. -/
theorem C1_cost_formula_nonneg {B M : ℕ} (T : Fin B → Fin M → ℚ)
    (posIx : List (Fin B × Fin M)) (Mplus : Fin B → ℚ) :
    cost T posIx Mplus = lossSpec T posIx Mplus ∧ 0 ≤ cost T posIx Mplus := by
  constructor
  · unfold cost lossSpec relu_vec
    rw [List.map_map, one_div, inv_mul_eq_div]
    have h : (fun u => u * u) ∘ hingeTerm T posIx Mplus =
        fun p : Fin B × Fin M =>
          relu (divBot (addBot (1 - T p.1 p.2) (maskedMaxSpec T posIx p.1)) (Mplus p.1)) ^ 2 := by
      funext p
      simp only [Function.comp_apply, hingeTerm, max_negs_eq_spec, pow_two]
    rw [h]
  · apply div_nonneg _ (Nat.cast_nonneg B)
    apply List.sum_nonneg
    intro x hx
    rcases List.mem_map.1 hx with ⟨u, _, rfl⟩
    exact mul_self_nonneg u

/-- C2: every positive entry of the score matrix is masked to negative
infinity, so it never contributes to the per-row maximum: whenever a row has
at least one entry that is not positive, `max_negs` of that row is attained at
a non-positive (negative) column and dominates the scores of all non-positive
columns. -/
theorem C2_masking {B M : ℕ} (T : Fin B → Fin M → ℚ)
    (posIx : List (Fin B × Fin M)) (r : Fin B) :
    (∀ p ∈ posIx, Tn T posIx p.1 p.2 = ⊥) ∧
    ((∃ c, (r, c) ∉ posIx) →
      ∃ c, (r, c) ∉ posIx ∧ max_negs T posIx r = (T r c : WithBot ℚ) ∧
        ∀ c', (r, c') ∉ posIx → T r c' ≤ T r c) := by
  constructor
  · intro p hp
    rw [Tn_eq]
    simp [hp]
  · rintro ⟨c0, hc0⟩
    have hmem : ∀ c : Fin M, Tn T posIx r c ∈ (List.finRange M).map fun c => Tn T posIx r c :=
      fun c => List.mem_map_of_mem _ (List.mem_finRange c)
    have hc0' : Tn T posIx r c0 = (T r c0 : WithBot ℚ) := by
      rw [Tn_eq, if_neg hc0]
    have hne : max_negs T posIx r ≠ ⊥ := by
      intro hbot
      have := le_foldr_wmax _ _ (hmem c0)
      rw [show ((List.finRange M).map fun c => Tn T posIx r c).foldr wmax ⊥ =
        max_negs T posIx r from rfl, hbot, le_bot_iff, hc0'] at this
      exact WithBot.coe_ne_bot this
    rcases foldr_wmax_cases ((List.finRange M).map fun c => Tn T posIx r c) with hbot | hmm
    · exact absurd hbot hne
    · rcases List.mem_map.1 hmm with ⟨c1, _, hc1⟩
      rw [Tn_eq] at hc1
      have hc1neg : (r, c1) ∉ posIx := by
        intro hpos
        apply hne
        rw [show max_negs T posIx r =
          ((List.finRange M).map fun c => Tn T posIx r c).foldr wmax ⊥ from rfl, ← hc1,
          if_pos hpos]
      rw [if_neg hc1neg] at hc1
      refine ⟨c1, hc1neg, ?_, ?_⟩
      · rw [show max_negs T posIx r =
          ((List.finRange M).map fun c => Tn T posIx r c).foldr wmax ⊥ from rfl, ← hc1]
      · intro c' hc'
        have hle := le_foldr_wmax _ _ (hmem c')
        rw [Tn_eq, if_neg hc', ← hc1] at hle
        exact WithBot.coe_le_coe.1 hle

/-- Concrete score matrix for the C2 witness: the positive entry (0,0) has the
highest score in its row, so the unmasked row maximum would be the positive's
own score. -/
def Tc2 : Fin 2 → Fin 2 → ℚ :=
  fun r c => if r = 0 then (if c = 0 then 5 else 3) else 0

/-- Concrete positive-pair list for the C2 witness. -/
def posc2 : List (Fin 2 × Fin 2) := [(0, 0)]

/-- Witness for C2 at a concrete batch: row 0 has the non-positive column 1,
and the masked maximum picks a negative entry. -/
theorem C2_masking_w :
    (∀ p ∈ posc2, Tn Tc2 posc2 p.1 p.2 = ⊥) ∧
    (∃ c, ((0 : Fin 2), c) ∉ posc2 ∧ max_negs Tc2 posc2 0 = (Tc2 0 c : WithBot ℚ) ∧
      ∀ c', ((0 : Fin 2), c') ∉ posc2 → Tc2 0 c' ≤ Tc2 0 c) :=
  ⟨(C2_masking Tc2 posc2 0).1, (C2_masking Tc2 posc2 0).2 ⟨1, by decide⟩⟩

/-! ## Statistics extractor lemmas -/

theorem mem_posIxOf {N M B : ℕ} (Y : Fin N → Fin M → Bool) (indices : Fin B → Fin N)
    (p : Fin B × Fin M) :
    p ∈ posIxOf Y indices ↔ Y (indices p.1) p.2 = true := by
  rcases p with ⟨r, c⟩
  constructor
  · intro hp
    rcases List.mem_flatMap.1 hp with ⟨r', _, hmem⟩
    rcases List.mem_map.1 hmem with ⟨c', hc', heq⟩
    cases heq
    exact (List.mem_filter.1 hc').2
  · intro hY
    exact List.mem_flatMap.2 ⟨r, List.mem_finRange r,
      List.mem_map.2 ⟨c, List.mem_filter.2 ⟨List.mem_finRange c, hY⟩, rfl⟩⟩

theorem foldr_wmax_all_bot (l : List (WithBot ℚ)) (h : ∀ x ∈ l, x = ⊥) :
    l.foldr wmax ⊥ = ⊥ := by
  rcases foldr_wmax_cases l with hbot | hmm
  · exact hbot
  · exact h _ hmm

/-- C7: the batch statistics fed to the loss are exactly: `posIx`, the
row-major list of (local row, global song column) pairs of the positive
entries of `Y[indices, :]`; `M⁺[row]`, the number of positive entries of that
batch row; and `nPos`, the total number of positive entries in the batch. -/
theorem C7_stats {N M B : ℕ} (Y : Fin N → Fin M → Bool) (indices : Fin B → Fin N) :
    (∀ p : Fin B × Fin M, p ∈ posIxOf Y indices ↔ Y (indices p.1) p.2 = true) ∧
    List.Pairwise (fun p q : Fin B × Fin M => p.1 < q.1 ∨ (p.1 = q.1 ∧ p.2 < q.2))
      (posIxOf Y indices) ∧
    (∀ r, MplusOf Y indices r = ((List.finRange M).countP fun c => Y (indices r) c : ℕ)) ∧
    nPosOf Y indices = ∑ r : Fin B, (List.finRange M).countP fun c => Y (indices r) c := by
  refine ⟨mem_posIxOf Y indices, ?_, ?_, ?_⟩
  · rw [posIxOf, List.flatMap_def, List.pairwise_flatten]
    constructor
    · intro l hl
      rcases List.mem_map.1 hl with ⟨r, _, rfl⟩
      rw [List.pairwise_map]
      exact ((List.pairwise_lt_finRange M).filter _).imp fun hcc => Or.inr ⟨rfl, hcc⟩
    · rw [List.pairwise_map]
      refine (List.pairwise_lt_finRange B).imp ?_
      intro r r' hrr x hx y hy
      rcases List.mem_map.1 hx with ⟨c, _, rfl⟩
      rcases List.mem_map.1 hy with ⟨c', _, rfl⟩
      exact Or.inl hrr
  · intro r
    rw [MplusOf, List.countP_eq_length_filter]
    rfl
  · rw [nPosOf, posIxOf, List.length_flatMap, Fin.sum_univ_def]
    have h : (List.length ∘ fun r => (rowPos (Y (indices r))).map fun c => (r, c)) =
        fun r : Fin B => (List.finRange M).countP fun c => Y (indices r) c := by
      funext r
      simp [Function.comp, List.countP_eq_length_filter, rowPos]
    rw [h]

/-- C6: degenerate playlist rows in a batch cause no division by zero and no
undefined loss: every division in the loss is by a strictly positive count, a
row with zero positives contributes no positive pair at all, and for a row
with zero negatives (all entries positive) each of its pair terms and the
corresponding sub-gradient are exactly zero. -/
theorem C6_degenerate_rows {N M B : ℕ} (Y : Fin N → Fin M → Bool)
    (indices : Fin B → Fin N) (T : Fin B → Fin M → ℚ) :
    (∀ p ∈ posIxOf Y indices, 0 < MplusOf Y indices p.1) ∧
    (∀ r, (∀ c, Y (indices r) c = false) → ∀ p ∈ posIxOf Y indices, p.1 ≠ r) ∧
    (∀ r, (∀ c, Y (indices r) c = true) → ∀ p ∈ posIxOf Y indices, p.1 = r →
      hingeTerm T (posIxOf Y indices) (MplusOf Y indices) p = 0 ∧
      gradPosTerm T (posIxOf Y indices) (MplusOf Y indices) p = 0) := by
  refine ⟨?_, ?_, ?_⟩
  · intro p hp
    rw [mem_posIxOf] at hp
    have hmem : p.2 ∈ rowPos (Y (indices p.1)) :=
      List.mem_filter.2 ⟨List.mem_finRange p.2, hp⟩
    exact_mod_cast Nat.cast_pos.2 (List.length_pos_of_mem hmem)
  · intro r hall p hp heq
    rw [mem_posIxOf] at hp
    rw [heq, hall p.2] at hp
    exact Bool.false_ne_true hp
  · intro r hall p hp hpr
    have hbot : max_negs T (posIxOf Y indices) p.1 = ⊥ := by
      apply foldr_wmax_all_bot
      intro x hx
      rcases List.mem_map.1 hx with ⟨c, _, rfl⟩
      rw [Tn_eq, if_pos]
      rw [mem_posIxOf, hpr]
      exact hall c
    constructor
    · rw [hingeTerm, hbot]
      rfl
    · rw [gradPosTerm, hbot]
      rfl

/-- Concrete membership matrix for the C6 witness: batch row 0 has zero
positives and batch row 1 has zero negatives. -/
def Yc6 : Fin 2 → Fin 2 → Bool := fun n _ => n == 1

/-- Identity batch-index map for the C6 witness. -/
def ic6 : Fin 2 → Fin 2 := fun r => r

/-- Constant score matrix for the C6 witness. -/
def Tc6 : Fin 2 → Fin 2 → ℚ := fun _ _ => 5

/-- Witness for C6 at a concrete degenerate batch. -/
theorem C6_degenerate_rows_w :
    (∀ p ∈ posIxOf Yc6 ic6, 0 < MplusOf Yc6 ic6 p.1) ∧
    (∀ p ∈ posIxOf Yc6 ic6, p.1 ≠ 0) ∧
    (∀ p ∈ posIxOf Yc6 ic6, p.1 = 1 →
      hingeTerm Tc6 (posIxOf Yc6 ic6) (MplusOf Yc6 ic6) p = 0 ∧
      gradPosTerm Tc6 (posIxOf Yc6 ic6) (MplusOf Yc6 ic6) p = 0) :=
  ⟨(C6_degenerate_rows Yc6 ic6 Tc6).1,
   (C6_degenerate_rows Yc6 ic6 Tc6).2.1 0 (by decide),
   (C6_degenerate_rows Yc6 ic6 Tc6).2.2 1 (by decide)⟩

/-! ## Frame property of the training loop -/

theorem trainStep_Y {N M D B : ℕ}
    (optStep : MFParams N M D → (Fin B → Fin N) → BatchStats B M → MFParams N M D)
    (st : TrainState N M D) (indices : Fin B → Fin N) :
    (trainStep optStep st indices).Y = st.Y :=
  rfl

theorem runEpoch_Y {N M D B : ℕ}
    (optStep : MFParams N M D → (Fin B → Fin N) → BatchStats B M → MFParams N M D)
    (st : TrainState N M D) (batches : List (Fin B → Fin N)) :
    (runEpoch optStep st batches).Y = st.Y := by
  induction batches generalizing st with
  | nil => rfl
  | cons b bs ih =>
    rw [runEpoch, List.foldl_cons]
    exact (ih (trainStep optStep st b)).trans (trainStep_Y optStep st b)

/-- C8: the membership matrix `Y` is never modified by the training loop: after
every epoch and every batch step (statistics extraction, loss computation and
optimizer update) the `Y` component of the trainer state equals the `Y` that
was loaded before training began. -/
theorem C8_Y_immutable {N M D B : ℕ}
    (optStep : MFParams N M D → (Fin B → Fin N) → BatchStats B M → MFParams N M D)
    (st : TrainState N M D) (epochs : List (List (Fin B → Fin N))) :
    (runTraining optStep st epochs).Y = st.Y := by
  induction epochs generalizing st with
  | nil => rfl
  | cons e es ih =>
    rw [runTraining, List.foldl_cons]
    exact (ih (runEpoch optStep st e)).trans (runEpoch_Y optStep st e)

/-! ## Parameter initialisation range -/

theorem init_scale_mem (x : ℚ) (hx : 0 ≤ x ∧ x < 1) :
    0 ≤ (1 / 1000 : ℚ) * x ∧ (1 / 1000 : ℚ) * x < 1 / 1000 := by
  constructor
  · exact mul_nonneg (by norm_num) hx.1
  · calc (1 / 1000 : ℚ) * x < (1 / 1000 : ℚ) * 1 := by
          exact mul_lt_mul_of_pos_left hx.2 (by norm_num)
    _ = 1 / 1000 := mul_one _

/-- C9: every entry of the initial parameters `S`, `b`, `P` lies in the
half-open interval `[0, 1e-3)`: the initial value is `1e-3` times a uniform
draw from `[0, 1)`, so all initial entries are non-negative and strictly below
`1e-3`. -/
theorem C9_init_range (D M N : ℕ) (uS : Fin D → Fin M → ℚ) (ub : Fin M → ℚ)
    (uP : Fin N → Fin D → ℚ)
    (hS : ∀ d m, 0 ≤ uS d m ∧ uS d m < 1) (hb : ∀ m, 0 ≤ ub m ∧ ub m < 1)
    (hP : ∀ n d, 0 ≤ uP n d ∧ uP n d < 1) :
    (∀ d m, 0 ≤ initS D M uS d m ∧ initS D M uS d m < 1 / 1000) ∧
    (∀ m, 0 ≤ initb M ub m ∧ initb M ub m < 1 / 1000) ∧
    (∀ n d, 0 ≤ initP N D uP n d ∧ initP N D uP n d < 1 / 1000) :=
  ⟨fun d m => init_scale_mem _ (hS d m), fun m => init_scale_mem _ (hb m),
   fun n d => init_scale_mem _ (hP n d)⟩

/-- Witness for C9 with concrete one-by-one shapes and the zero draw. -/
theorem C9_init_range_w :
    (∀ d m : Fin 1, 0 ≤ initS 1 1 (fun _ _ => 0) d m ∧ initS 1 1 (fun _ _ => 0) d m < 1 / 1000) ∧
    (∀ m : Fin 1, 0 ≤ initb 1 (fun _ => 0) m ∧ initb 1 (fun _ => 0) m < 1 / 1000) ∧
    (∀ n d : Fin 1, 0 ≤ initP 1 1 (fun _ _ => 0) n d ∧ initP 1 1 (fun _ _ => 0) n d < 1 / 1000) :=
  C9_init_range 1 1 1 (fun _ _ => 0) (fun _ => 0) (fun _ _ => 0)
    (by decide) (by decide) (by decide)

/-! ## Batch sampler lemmas -/

theorem n_batches_pos (N B : ℕ) : 0 < n_batches N B :=
  Nat.succ_pos _

theorem nb_mul_le (N B nb : ℕ) (hB : 1 ≤ B) (hnb : nb < n_batches N B) :
    nb * B ≤ N - 1 := by
  rw [n_batches, Nat.lt_succ_iff] at hnb
  exact (Nat.le_div_iff_mul_le (by omega)).1 hnb

theorem length_take_drop (perm : List ℕ) (N B k : ℕ) (hlen : perm.length = N) :
    ((perm.drop k).take B).length = min B (N - k) := by
  rw [List.length_take, List.length_drop, hlen]

theorem pad_sum_eq (N B k : ℕ) (hB2 : B ≤ 2 * N) (hk : k ≤ N - 1)
    (hdisj : k = 0 ∨ B ≤ k) (hN : 1 ≤ N) :
    min B (N - k) + min (B - min B (N - k)) N = B := by
  omega

theorem min_eq_of_not_lt (a b : ℕ) (h : ¬ min a b < a) : min a b = a := by
  omega

theorem mkBatch_length (perm : List ℕ) (N B nb : ℕ) (hlen : perm.length = N)
    (hN : 1 ≤ N) (hB : 1 ≤ B) (hB2 : B ≤ 2 * N) (hnb : nb < n_batches N B) :
    (mkBatch perm B nb).length = B := by
  have hkN : nb * B ≤ N - 1 := nb_mul_le N B nb hB hnb
  have hdisj : nb * B = 0 ∨ B ≤ nb * B := by
    rcases Nat.eq_zero_or_pos nb with h0 | h1
    · exact Or.inl (by rw [h0, Nat.zero_mul])
    · refine Or.inr ?_
      calc B = 1 * B := (Nat.one_mul B).symm
      _ ≤ nb * B := Nat.mul_le_mul_right B h1
  have h1 := length_take_drop perm N B (nb * B) hlen
  by_cases hpad : ((perm.drop (nb * B)).take B).length < B
  · simp only [mkBatch]
    rw [if_pos hpad, List.length_append, h1, List.length_take, hlen]
    exact pad_sum_eq N B (nb * B) hB2 hkN hdisj hN
  · simp only [mkBatch]
    rw [if_neg hpad, h1]
    rw [h1] at hpad
    exact min_eq_of_not_lt B (N - nb * B) hpad

theorem mem_mkBatch_of_mem_chunk (perm : List ℕ) (B nb : ℕ) (x : ℕ)
    (h : x ∈ (perm.drop (nb * B)).take B) : x ∈ mkBatch perm B nb := by
  simp only [mkBatch]
  split
  · exact List.mem_append_left _ h
  · exact h

/-- Counterexample to C3 as stated: with N = 1 playlist and batch size B = 3
(so B > 2N), the epoch's single batch holds only two indices, not B. -/
theorem C3_cex : ∃ batch ∈ epochBatches [0] 3 1, batch.length ≠ 3 := by decide

/-- C3 (amended): for every N ≥ 1 and batch size B with 1 ≤ B ≤ 2N, an epoch
over a permutation of `{0,...,N-1}` produces exactly `ceil(N/B)` batches,
sliced as consecutive chunks with the short final chunk padded from the start
of the permutation, so every batch has exactly B indices and the batches of
the epoch together cover all N playlists at least once.  (The bound B ≤ 2N is
forced by the code: the padding slice `rand_ix[:B - len]` clamps at N
elements, so for B > 2N the final batch is shorter than B.) -/
theorem C3_amended (N B : ℕ) (perm : List ℕ) (hN : 1 ≤ N) (hB : 1 ≤ B)
    (hB2 : B ≤ 2 * N) (hlen : perm.length = N) (hperm : ∀ x, x ∈ perm ↔ x < N) :
    (epochBatches perm B N).length = (N + B - 1) / B ∧
    (∀ batch ∈ epochBatches perm B N, batch.length = B) ∧
    (∀ x < N, ∃ batch ∈ epochBatches perm B N, x ∈ batch) := by
  refine ⟨?_, ?_, ?_⟩
  · rcases Nat.exists_eq_add_of_le hN with ⟨n, rfl⟩
    rw [epochBatches, List.length_map, List.length_range, n_batches]
    have h1 : 1 + n + B - 1 = n + B := by omega
    have h2 : 1 + n - 1 = n := by omega
    rw [h1, h2, Nat.add_div_right n (by omega)]
  · intro batch hbatch
    rcases List.mem_map.1 hbatch with ⟨nb, hnb, rfl⟩
    exact mkBatch_length perm N B nb hlen hN hB hB2 (List.mem_range.1 hnb)
  · intro x hx
    have hxmem : x ∈ perm := (hperm x).2 hx
    rcases List.mem_iff_get.1 hxmem with ⟨⟨i, hi⟩, rfl⟩
    have hiN : i < N := by rw [hlen] at hi; exact hi
    refine ⟨mkBatch perm B (i / B), List.mem_map.2 ⟨i / B, List.mem_range.2 ?_, rfl⟩, ?_⟩
    · rw [n_batches, Nat.lt_succ_iff]
      exact Nat.div_le_div_right (by omega)
    · apply mem_mkBatch_of_mem_chunk
      have hj : i % B < B := Nat.mod_lt i (by omega)
      have hsplit : i / B * B + i % B = i := by
        rw [Nat.mul_comm]
        exact Nat.div_add_mod i B
      have hjlen : i % B < ((perm.drop (i / B * B)).take B).length := by
        rw [List.length_take, List.length_drop, hlen]
        omega
      have hidx : ((perm.drop (i / B * B)).take B).get ⟨i % B, hjlen⟩ = perm.get ⟨i, hi⟩ := by
        simp only [List.get_eq_getElem, List.getElem_take, List.getElem_drop, hsplit]
      exact List.mem_iff_get.2 ⟨⟨i % B, hjlen⟩, hidx⟩

/-- Witness for C3 (amended) at the spec's own example N = 10, B = 4, with the
identity permutation. -/
theorem C3_amended_w :
    (epochBatches (List.range 10) 4 10).length = (10 + 4 - 1) / 4 ∧
    (∀ batch ∈ epochBatches (List.range 10) 4 10, batch.length = 4) ∧
    (∀ x < 10, ∃ batch ∈ epochBatches (List.range 10) 4 10, x ∈ batch) :=
  C3_amended 10 4 (List.range 10) (by decide) (by decide) (by decide)
    (List.length_range 10) (fun x => List.mem_range)

/-! ## Distinctness and overlap of batches within an epoch -/

/-- The batch starting at offset `k` of the permutation; `mkBatch` uses its
batch number only through the offset `nb * B`. -/
def mkChunk (perm : List ℕ) (B k : ℕ) : List ℕ :=
  let indices := (perm.drop k).take B
  if indices.length < B then indices ++ perm.take (B - indices.length) else indices

theorem mkBatch_eq_mkChunk (perm : List ℕ) (B nb : ℕ) :
    mkBatch perm B nb = mkChunk perm B (nb * B) :=
  rfl

theorem mkChunk_nodup (perm : List ℕ) (N B k : ℕ) (hlen : perm.length = N)
    (hnd : perm.Nodup) (hBN : B ≤ N) :
    (mkChunk perm B k).Nodup := by
  have hsub : ((perm.drop k).take B).Sublist perm :=
    (List.take_sublist _ _).trans (List.drop_sublist _ _)
  have hnod1 : ((perm.drop k).take B).Nodup := hnd.sublist hsub
  simp only [mkChunk]
  split
  case isTrue hpad =>
    have hixlen := length_take_drop perm N B k hlen
    rw [hixlen] at hpad ⊢
    refine List.Nodup.append hnod1 (hnd.sublist (List.take_sublist _ _)) ?_
    intro a ha ha'
    have hin_drop : a ∈ perm.drop k := List.take_subset _ _ ha
    have hdisj2 := List.disjoint_take_drop (l := perm) hnd
      (show B - min B (N - k) ≤ k by omega)
    exact hdisj2 ha' hin_drop
  case isFalse hpad =>
    exact hnod1

theorem n_batches_eq_div_succ (N B : ℕ) (hB : 1 ≤ B) (hr : N % B ≠ 0) :
    n_batches N B = N / B + 1 := by
  have hB0 : 0 < B := by omega
  have hdm := Nat.div_add_mod N B
  have hmod := Nat.mod_lt N hB0
  have hlt : N % B - 1 < B := by omega
  rw [n_batches]
  congr 1
  have h2 : N - 1 = B * (N / B) + (N % B - 1) := by omega
  rw [h2, Nat.mul_add_div hB0, Nat.div_eq_of_lt hlt, Nat.add_zero]

/-- C10: within an epoch with B ≤ N the indices inside every single batch are
pairwise distinct, and whenever B does not divide N the indices at the start
of the epoch's permutation appear both in the first batch and in the padded
final batch, which are different batches of that epoch. -/
theorem C10_batch_nodup_overlap (N B : ℕ) (perm : List ℕ) (hlen : perm.length = N)
    (hnd : perm.Nodup) (hB : 1 ≤ B) (hBN : B ≤ N) :
    (∀ nb < n_batches N B, (mkBatch perm B nb).Nodup) ∧
    (¬ B ∣ N →
      1 ≤ n_batches N B * B - N ∧
      perm.take (n_batches N B * B - N) ⊆ mkBatch perm B 0 ∧
      perm.take (n_batches N B * B - N) ⊆ mkBatch perm B (n_batches N B - 1) ∧
      0 < n_batches N B - 1) := by
  have hN : 1 ≤ N := le_trans hB hBN
  constructor
  · intro nb hnb
    rw [mkBatch_eq_mkChunk]
    exact mkChunk_nodup perm N B (nb * B) hlen hnd hBN
  · intro hdvd
    have hr0 : N % B ≠ 0 := fun h => hdvd (Nat.dvd_of_mod_eq_zero h)
    have hmod := Nat.mod_lt N (show 0 < B by omega)
    have hdm := Nat.div_add_mod N B
    have hnbe : n_batches N B = N / B + 1 := n_batches_eq_div_succ N B hB hr0
    have hq1 : 1 ≤ N / B := (Nat.one_le_div_iff (by omega)).2 hBN
    have hmul : (N / B + 1) * B = B * (N / B) + B := by ring
    have hpadlen : n_batches N B * B - N = B - N % B := by
      rw [hnbe, hmul]
      omega
    have hfirst : mkBatch perm B 0 = perm.take B := by
      have hlen0 : (perm.take B).length = B := by
        rw [List.length_take, hlen]
        omega
      simp only [mkBatch, Nat.zero_mul, List.drop_zero, hlen0]
      rw [if_neg (lt_irrefl B)]
    have hixlen : ((perm.drop (N / B * B)).take B).length = N % B := by
      rw [List.length_take, List.length_drop, hlen, Nat.mul_comm (N / B) B]
      omega
    have hfin : mkBatch perm B (n_batches N B - 1) =
        (perm.drop (N / B * B)).take B ++ perm.take (B - N % B) := by
      rw [hnbe, Nat.add_sub_cancel]
      simp only [mkBatch]
      rw [if_pos (by rw [hixlen]; omega), hixlen]
    refine ⟨by rw [hpadlen]; omega, ?_, ?_, by rw [hnbe]; omega⟩
    · rw [hpadlen, hfirst]
      have h1 : (perm.take B).take (B - N % B) = perm.take (B - N % B) := by
        rw [List.take_take, min_eq_left (by omega)]
      intro x hx
      rw [← h1] at hx
      exact List.take_subset _ _ hx
    · rw [hpadlen, hfin]
      intro x hx
      exact List.mem_append_right _ hx

/-- Witness for C10 at N = 5, B = 2 with the identity permutation: batches
`[0,1] [2,3] [4,0]`; each batch has distinct indices and index 0 appears in
the first and in the padded third batch. -/
theorem C10_batch_nodup_overlap_w :
    (∀ nb < n_batches 5 2, (mkBatch (List.range 5) 2 nb).Nodup) ∧
    (1 ≤ n_batches 5 2 * 2 - 5 ∧
      (List.range 5).take (n_batches 5 2 * 2 - 5) ⊆ mkBatch (List.range 5) 2 0 ∧
      (List.range 5).take (n_batches 5 2 * 2 - 5) ⊆ mkBatch (List.range 5) 2 (n_batches 5 2 - 1) ∧
      0 < n_batches 5 2 - 1) :=
  ⟨(C10_batch_nodup_overlap 5 2 (List.range 5) (List.length_range 5) (List.nodup_range 5)
      (by decide) (by decide)).1,
   (C10_batch_nodup_overlap 5 2 (List.range 5) (List.length_range 5) (List.nodup_range 5)
      (by decide) (by decide)).2 (by decide)⟩

/-! ## Determinism of the batch orderings (C4) and the saved artifact (C5) -/

/-- C4 (code-bug demonstration): the per-epoch batch orderings are a function
of the numpy generator's start-up state, which the configuration's seed does
not determine because the source never calls `np.random.seed`: there are two
start-up states of a valid permutation generator under which two runs with
identical configuration produce different batch orderings. -/
theorem C4_orderings_not_seeded :
    ∃ (npPerm : ℕ → ℕ → List ℕ × ℕ) (s1 s2 : ℕ),
      (∀ s n, List.Perm (npPerm s n).1 (List.range n)) ∧
      runOrderings npPerm 2 1 1 s1 ≠ runOrderings npPerm 2 1 1 s2 := by
  refine ⟨fun s n => (if s % 2 = 0 then List.range n else (List.range n).reverse, s + 1),
    0, 1, ?_, ?_⟩
  · intro s n
    dsimp only
    split
    · exact List.Perm.refl _
    · exact List.reverse_perm (List.range n)
  · decide

/-- C5 (code-bug demonstration): `np.r_[S, b, P]` requires all three arrays to
share one column count, but `S` and `b` have `M` columns while `P` has `D`
columns; with `M ≠ D` (here D = 1, M = 2, N = 1) the save fails and nothing is
persisted, while whenever `M = D` the persisted stack does have exactly
`D + 1 + N` rows. -/
theorem C5_save_blob :
    blobOf 1 2 1 (fun _ _ => 0) (fun _ => 0) (fun _ _ => 0) = none ∧
    (∀ (D N : ℕ) (S : Fin D → Fin D → ℚ) (b : Fin D → ℚ) (P : Fin N → Fin D → ℚ),
      ∃ w, blobOf D D N S b P = some w ∧ w.length = D + 1 + N) := by
  constructor
  · decide
  · intro D N S b P
    have hall : ∀ row ∈ matOfS D D S ++ matOfb D b ++ matOfP N D P, row.length = D := by
      intro row hrow
      rcases List.mem_append.1 hrow with h12 | h3
      · rcases List.mem_append.1 h12 with h1 | h2
        · rcases List.mem_map.1 h1 with ⟨d, _, rfl⟩
          simp
        · rw [List.mem_singleton.1 h2]
          simp
      · rcases List.mem_map.1 h3 with ⟨n, _, rfl⟩
        simp
    refine ⟨matOfS D D S ++ matOfb D b ++ matOfP N D P, ?_, ?_⟩
    · simp only [blobOf, np_r3]
      rw [if_pos]
      intro r hr r' hr'
      rw [hall r hr, hall r' hr']
    · rw [List.length_append, List.length_append]
      simp [matOfS, matOfb, matOfP]

end MFTP
